import Mathlib

/-! Verification development for `06_pascal_caffenet_mixup.py`
(PASCAL multi-label classification with mixup augmentation).

The Python source is shallowly embedded below.  Tensors are modelled as
(nested) lists of rationals or reals; the random draws consumed by the
code (`np.random.beta`, `np.random.permutation`) are passed to the
embedded functions as explicit arguments, so every embedded function is
a deterministic function of its inputs and of the random draws. -/

namespace Pascal

/-! ## Mixup augmentation (`mixup`, source lines 118-139)

`mixup(images, labels, l_weights, alpha, batch_size)` draws
`weights = np.random.beta(alpha, alpha, batch_size)` (here the argument
`lam`) and `ordering = np.random.permutation(batch_size)` (here the
argument `ordering`), gathers the batch along `ordering`, and returns
the per-example convex combinations.  A batch row (one image, one label
vector, one weight vector) is a `List Rat`; a batch is a list of rows. -/

/-- Elementwise convex combination of two rows with coefficient `lam`:
the broadcast `lam * old + (1 - lam) * new` of the source. -/
def scaleAdd (lam : Rat) (old new : List Rat) : List Rat :=
  List.zipWith (fun o n => lam * o + (1 - lam) * n) old new

/-- Embedding of `tf.gather(xs, ordering)`: row `i` of the result is row
`ordering[i]` of `xs`. -/
def gather (xs : List (List Rat)) (ordering : List Nat) : List (List Rat) :=
  ordering.map (fun i => xs.getD i [])

/-- Per-example broadcast mix of two batches: row `i` of the result is
`scaleAdd lam[i] old[i] new[i]`, matching the broadcast of the
`(batch, 1, 1, 1)`- resp. `(batch, 1)`-shaped coefficient tensors. -/
def mixRows : List Rat → List (List Rat) → List (List Rat) → List (List Rat)
  | l :: ls, o :: os, n :: ns => scaleAdd l o n :: mixRows ls os ns
  | _, _, _ => []

/-- Embedding of `mixup` (lines 118-139).  `lam` is the vector of
Beta(alpha, alpha) draws, `ordering` the drawn permutation; the function
returns `(images_mixed, labels_mixed, l_weights)` where the weight
mixing line of the source is commented out, so `l_weights` is returned
untouched. -/
def mixup (images labels l_weights : List (List Rat)) (lam : List Rat)
    (ordering : List Nat) :
    List (List Rat) × List (List Rat) × List (List Rat) :=
  let images_new := gather images ordering
  let labels_new := gather labels ordering
  (mixRows lam images images_new, mixRows lam labels labels_new, l_weights)

theorem mixRows_length (lam : List Rat) (old new : List (List Rat)) :
    (mixRows lam old new).length =
      min lam.length (min old.length new.length) := by
  induction lam generalizing old new with
  | nil => cases old <;> cases new <;> simp [mixRows]
  | cons l ls ih =>
    cases old with
    | nil => cases new <;> simp [mixRows]
    | cons o os =>
      cases new with
      | nil => simp [mixRows]
      | cons n ns =>
        simp [mixRows, ih, Nat.succ_min_succ]

theorem mixRows_getD (lam : List Rat) (old new : List (List Rat))
    (i : Nat) (h1 : i < lam.length) (h2 : i < old.length)
    (h3 : i < new.length) :
    (mixRows lam old new).getD i [] =
      scaleAdd (lam.getD i 0) (old.getD i []) (new.getD i []) := by
  induction lam generalizing old new i with
  | nil => simp at h1
  | cons l ls ih =>
    cases old with
    | nil => simp at h2
    | cons o os =>
      cases new with
      | nil => simp at h3
      | cons n ns =>
        cases i with
        | zero => simp [mixRows]
        | succ j =>
          simp only [mixRows, List.getD_cons_succ]
          exact ih os ns j (by simpa using h1) (by simpa using h2)
            (by simpa using h3)

theorem gather_length (xs : List (List Rat)) (ordering : List Nat) :
    (gather xs ordering).length = ordering.length := by
  simp [gather]

theorem gather_getD (xs : List (List Rat)) (ordering : List Nat)
    (i : Nat) (h : i < ordering.length) :
    (gather xs ordering).getD i [] = xs.getD (ordering.getD i 0) [] := by
  simp only [gather]
  rw [List.getD_eq_getElem _ _ (by simpa using h)]
  rw [List.getElem_map]
  rw [List.getD_eq_getElem _ _ h]

/-- C1: for every batch and every vector `lam` of drawn Beta
coefficients and drawn permutation `ordering` (the draws are the
arguments standing for `np.random.beta(alpha, alpha, batch_size)` and
`np.random.permutation(batch_size)`), row `i` of the mixed images is
`lam_i * image_i + (1 - lam_i) * image_(ordering_i)` and row `i` of the
mixed labels is `lam_i * label_i + (1 - lam_i) * label_(ordering_i)`,
with the same `lam_i` and the same `ordering` used for the image and
the label of example `i`. -/
theorem mixup_per_example (images labels l_weights : List (List Rat))
    (lam : List Rat) (ordering : List Nat)
    (hlam : lam.length = images.length)
    (hlab : labels.length = images.length)
    (hord : ordering.length = images.length)
    (i : Nat) (hi : i < images.length) :
    (mixup images labels l_weights lam ordering).1.getD i [] =
        List.zipWith
          (fun o n => lam.getD i 0 * o + (1 - lam.getD i 0) * n)
          (images.getD i []) (images.getD (ordering.getD i 0) []) ∧
      (mixup images labels l_weights lam ordering).2.1.getD i [] =
        List.zipWith
          (fun o n => lam.getD i 0 * o + (1 - lam.getD i 0) * n)
          (labels.getD i []) (labels.getD (ordering.getD i 0) []) := by
  constructor
  · show (mixRows lam images (gather images ordering)).getD i [] = _
    rw [mixRows_getD lam images (gather images ordering) i
      (by omega) hi (by rw [gather_length]; omega)]
    rw [gather_getD images ordering i (by omega)]
    rfl
  · show (mixRows lam labels (gather labels ordering)).getD i [] = _
    rw [mixRows_getD lam labels (gather labels ordering) i
      (by omega) (by omega) (by rw [gather_length]; omega)]
    rw [gather_getD labels ordering i (by omega)]
    rfl

/-- C1 witness: the theorem applied to a concrete batch of two
one-pixel images. -/
theorem mixup_per_example_witness :
    (mixup [[2], [4]] [[1, 0], [0, 1]] [[1, 1], [1, 1]]
        [1/2, 1/4] [1, 0]).1.getD 0 [] =
        List.zipWith
          (fun o n => (([1/2, 1/4] : List Rat).getD 0 0) * o +
            (1 - ([1/2, 1/4] : List Rat).getD 0 0) * n)
          (([[2], [4]] : List (List Rat)).getD 0 [])
          (([[2], [4]] : List (List Rat)).getD
            (([1, 0] : List Nat).getD 0 0) []) ∧
      (mixup [[2], [4]] [[1, 0], [0, 1]] [[1, 1], [1, 1]]
        [1/2, 1/4] [1, 0]).2.1.getD 0 [] =
        List.zipWith
          (fun o n => (([1/2, 1/4] : List Rat).getD 0 0) * o +
            (1 - ([1/2, 1/4] : List Rat).getD 0 0) * n)
          (([[1, 0], [0, 1]] : List (List Rat)).getD 0 [])
          (([[1, 0], [0, 1]] : List (List Rat)).getD
            (([1, 0] : List Nat).getD 0 0) []) :=
  mixup_per_example [[2], [4]] [[1, 0], [0, 1]] [[1, 1], [1, 1]]
    [1/2, 1/4] [1, 0] (by decide) (by decide) (by decide) 0 (by decide)

theorem scaleAdd_length (lam : Rat) (old new : List Rat) :
    (scaleAdd lam old new).length = min old.length new.length := by
  simp [scaleAdd]

/-- C2: the mixed images and labels have exactly the shape of the input
(`P` pixels per image row, `C` classes per label row, batch size
preserved), and the returned weights are the input weights unchanged:
the weight-mixing line of the source is commented out and `l_weights`
is returned as received. -/
theorem mixup_shape (images labels l_weights : List (List Rat))
    (lam : List Rat) (ordering : List Nat) (P C : Nat)
    (hlam : lam.length = images.length)
    (hlab : labels.length = images.length)
    (hord : ordering.length = images.length)
    (hmem : ∀ j ∈ ordering, j < images.length)
    (hrow : ∀ r ∈ images, r.length = P)
    (hlrow : ∀ r ∈ labels, r.length = C) :
    (mixup images labels l_weights lam ordering).1.length = images.length ∧
      (∀ i, i < images.length →
        ((mixup images labels l_weights lam ordering).1.getD i []).length
          = P) ∧
      (mixup images labels l_weights lam ordering).2.1.length
        = labels.length ∧
      (∀ i, i < labels.length →
        ((mixup images labels l_weights lam ordering).2.1.getD i []).length
          = C) ∧
      (mixup images labels l_weights lam ordering).2.2 = l_weights := by
  refine ⟨?_, ?_, ?_, ?_, rfl⟩
  · show (mixRows lam images (gather images ordering)).length = _
    rw [mixRows_length, gather_length]; omega
  · intro i hi
    show ((mixRows lam images (gather images ordering)).getD i []).length = P
    rw [mixRows_getD lam images (gather images ordering) i (by omega) hi
      (by rw [gather_length]; omega)]
    rw [gather_getD images ordering i (by omega)]
    rw [scaleAdd_length]
    have h1 : images.getD i [] ∈ images := by
      rw [List.getD_eq_getElem _ _ hi]; exact List.getElem_mem hi
    have hj : ordering.getD i 0 ∈ ordering := by
      rw [List.getD_eq_getElem _ _ (by omega : i < ordering.length)]
      exact List.getElem_mem (by omega)
    have hjlt : ordering.getD i 0 < images.length := hmem _ hj
    have h2 : images.getD (ordering.getD i 0) [] ∈ images := by
      rw [List.getD_eq_getElem _ _ hjlt]; exact List.getElem_mem hjlt
    rw [hrow _ h1, hrow _ h2, min_self]
  · show (mixRows lam labels (gather labels ordering)).length = _
    rw [mixRows_length, gather_length]; omega
  · intro i hi
    show ((mixRows lam labels (gather labels ordering)).getD i []).length = C
    rw [mixRows_getD lam labels (gather labels ordering) i (by omega)
      (by omega) (by rw [gather_length]; omega)]
    rw [gather_getD labels ordering i (by omega)]
    rw [scaleAdd_length]
    have h1 : labels.getD i [] ∈ labels := by
      rw [List.getD_eq_getElem _ _ hi]; exact List.getElem_mem hi
    have hj : ordering.getD i 0 ∈ ordering := by
      rw [List.getD_eq_getElem _ _ (by omega : i < ordering.length)]
      exact List.getElem_mem (by omega)
    have hjlt : ordering.getD i 0 < labels.length := by
      have := hmem _ hj; omega
    have h2 : labels.getD (ordering.getD i 0) [] ∈ labels := by
      rw [List.getD_eq_getElem _ _ hjlt]; exact List.getElem_mem hjlt
    rw [hlrow _ h1, hlrow _ h2, min_self]

/-- C2 witness: the shape theorem applied to a concrete batch. -/
theorem mixup_shape_witness :
    (mixup [[2], [4]] [[1, 0], [0, 1]] [[1, 1], [0, 1]]
        [1/2, 1/4] [1, 0]).1.length = 2 ∧
      (∀ i, i < ([[2], [4]] : List (List Rat)).length →
        ((mixup [[2], [4]] [[1, 0], [0, 1]] [[1, 1], [0, 1]]
          [1/2, 1/4] [1, 0]).1.getD i []).length = 1) ∧
      (mixup [[2], [4]] [[1, 0], [0, 1]] [[1, 1], [0, 1]]
        [1/2, 1/4] [1, 0]).2.1.length = 2 ∧
      (∀ i, i < ([[1, 0], [0, 1]] : List (List Rat)).length →
        ((mixup [[2], [4]] [[1, 0], [0, 1]] [[1, 1], [0, 1]]
          [1/2, 1/4] [1, 0]).2.1.getD i []).length = 2) ∧
      (mixup [[2], [4]] [[1, 0], [0, 1]] [[1, 1], [0, 1]]
        [1/2, 1/4] [1, 0]).2.2 = [[1, 1], [0, 1]] :=
  mixup_shape [[2], [4]] [[1, 0], [0, 1]] [[1, 1], [0, 1]]
    [1/2, 1/4] [1, 0] 1 2 (by decide) (by decide) (by decide)
    (by decide) (by decide) (by decide)

theorem gather_range (xs : List (List Rat)) :
    gather xs (List.range xs.length) = xs := by
  apply List.ext_getElem
  · simp [gather]
  · intro i h1 h2
    simp only [gather, List.getElem_map, List.getElem_range]
    rw [List.getD_eq_getElem _ _ h2]

theorem mixRows_self (lam : List Rat) (xs : List (List Rat))
    (h : xs.length ≤ lam.length) : mixRows lam xs xs = xs := by
  induction xs generalizing lam with
  | nil => cases lam <;> rfl
  | cons x rest ih =>
    cases lam with
    | nil => simp at h
    | cons l ls =>
      show scaleAdd l x x :: mixRows ls rest rest = x :: rest
      have hx : scaleAdd l x x = x := by
        unfold scaleAdd
        rw [List.zipWith_same]
        calc List.map (fun a => l * a + (1 - l) * a) x
            = List.map id x :=
              List.map_congr_left (fun a _ => by simp only [id_eq]; ring)
          _ = x := List.map_id x
      rw [hx, ih ls (by simpa using h)]

/-- C6: when the drawn permutation is the identity (`np.random.permutation`
returned `0, 1, ..., N-1`, which is the only possibility for a batch of
size `N = 1`), `mixup` returns the images and labels unchanged, for
every coefficient vector `lam`: over exact arithmetic each row is mixed
with itself and `lam * x + (1 - lam) * x = x`. -/
theorem mixup_identity_perm (images labels l_weights : List (List Rat))
    (lam : List Rat) (ordering : List Nat)
    (hlam : lam.length = images.length)
    (hlab : labels.length = images.length)
    (hord : ordering = List.range images.length) :
    (mixup images labels l_weights lam ordering).1 = images ∧
      (mixup images labels l_weights lam ordering).2.1 = labels ∧
      (mixup images labels l_weights lam ordering).2.2 = l_weights := by
  subst hord
  refine ⟨?_, ?_, rfl⟩
  · show mixRows lam images (gather images (List.range images.length))
      = images
    rw [gather_range, mixRows_self lam images (by omega)]
  · show mixRows lam labels (gather labels (List.range images.length))
      = labels
    rw [← hlab, gather_range, mixRows_self lam labels (by omega)]

/-- C6 witness: a batch of size one, where the only permutation is the
identity `[0]`, is returned unchanged for an arbitrary coefficient. -/
theorem mixup_identity_perm_witness :
    (mixup [[5, 7]] [[1, 0]] [[1, 1]] [3] [0]).1 = [[5, 7]] ∧
      (mixup [[5, 7]] [[1, 0]] [[1, 1]] [3] [0]).2.1 = [[1, 0]] ∧
      (mixup [[5, 7]] [[1, 0]] [[1, 1]] [3] [0]).2.2 = [[1, 1]] :=
  mixup_identity_perm [[5, 7]] [[1, 0]] [[1, 1]] [3] [0]
    (by decide) (by decide) (by decide)

/-- Follows the words of the spec sentence behind C5 (and only that
sentence): a mix in which EACH of the two operands of the convex
combination is an independently drawn random permutation of the batch,
`ord1` being the draw for the first operand and `ord2` the draw for the
second. -/
def mixupTwoPermutations (images labels l_weights : List (List Rat))
    (lam : List Rat) (ord1 ord2 : List Nat) :
    List (List Rat) × List (List Rat) × List (List Rat) :=
  (mixRows lam (gather images ord1) (gather images ord2),
    mixRows lam (gather labels ord1) (gather labels ord2), l_weights)

/-- C5 counterexample: with the batch `x = [[0], [1]]` and coefficients
`lam = [1, 1]` the mixed images equal the FIRST operand of the convex
combination.  The code produces `x` itself for both possible drawn
permutations of size 2, so its first operand is always the unpermuted
input batch; had the first operand been an independently drawn random
permutation as the claim states, the draw `[1, 0]` would produce the
swapped batch `[[1], [0]] ≠ x`.  Hence the two operands are not two
independently drawn permutations: the source draws exactly one
permutation and mixes it into the original batch order. -/
theorem mixup_two_permutations_counterexample :
    (mixup [[0], [1]] [[0], [1]] [[1], [1]] [1, 1] [0, 1]).1
        = [[0], [1]] ∧
      (mixup [[0], [1]] [[0], [1]] [[1], [1]] [1, 1] [1, 0]).1
        = [[0], [1]] ∧
      (mixupTwoPermutations [[0], [1]] [[0], [1]] [[1], [1]]
        [1, 1] [1, 0] [0, 1]).1 = [[1], [0]] ∧
      ([[1], [0]] : List (List Rat)) ≠ [[0], [1]] := by
  refine ⟨?_, ?_, ?_, by decide⟩
  · show mixRows [1, 1] [[0], [1]] (gather [[0], [1]] [0, 1]) = [[0], [1]]
    norm_num [mixRows, gather, scaleAdd]
  · show mixRows [1, 1] [[0], [1]] (gather [[0], [1]] [1, 0]) = [[0], [1]]
    norm_num [mixRows, gather, scaleAdd]
  · show mixRows [1, 1] (gather [[0], [1]] [1, 0])
      (gather [[0], [1]] [0, 1]) = [[1], [0]]
    norm_num [mixRows, gather, scaleAdd]

/-- C5 amended: the mixed batch is produced by interpolating the input
batch in its original order (first operand) with a single drawn random
permutation of it (second operand), with a per-example Beta-distributed
coefficient; the same single permutation draw is used for images and
labels. -/
theorem mixup_one_permutation (images labels l_weights : List (List Rat))
    (lam : List Rat) (ordering : List Nat)
    (hlam : lam.length = images.length)
    (hlab : labels.length = images.length)
    (hord : ordering.length = images.length)
    (i : Nat) (hi : i < images.length) :
    (mixup images labels l_weights lam ordering).1.getD i [] =
        scaleAdd (lam.getD i 0) (images.getD i [])
          (images.getD (ordering.getD i 0) []) ∧
      (mixup images labels l_weights lam ordering).2.1.getD i [] =
        scaleAdd (lam.getD i 0) (labels.getD i [])
          (labels.getD (ordering.getD i 0) []) := by
  constructor
  · show (mixRows lam images (gather images ordering)).getD i [] = _
    rw [mixRows_getD lam images (gather images ordering) i
      (by omega) hi (by rw [gather_length]; omega)]
    rw [gather_getD images ordering i (by omega)]
  · show (mixRows lam labels (gather labels ordering)).getD i [] = _
    rw [mixRows_getD lam labels (gather labels ordering) i
      (by omega) (by omega) (by rw [gather_length]; omega)]
    rw [gather_getD labels ordering i (by omega)]

/-- C5 amended claim witness: the amended theorem applied to a concrete
batch. -/
theorem mixup_one_permutation_witness :
    (mixup [[0], [1]] [[1], [0]] [[1], [1]] [1/4, 1/2] [1, 0]).1.getD 0 []
        = scaleAdd ((([1/4, 1/2] : List Rat)).getD 0 0)
          (([[0], [1]] : List (List Rat)).getD 0 [])
          (([[0], [1]] : List (List Rat)).getD
            (([1, 0] : List Nat).getD 0 0) []) ∧
      (mixup [[0], [1]] [[1], [0]] [[1], [1]]
        [1/4, 1/2] [1, 0]).2.1.getD 0 []
        = scaleAdd ((([1/4, 1/2] : List Rat)).getD 0 0)
          (([[1], [0]] : List (List Rat)).getD 0 [])
          (([[1], [0]] : List (List Rat)).getD
            (([1, 0] : List Nat).getD 0 0) []) :=
  mixup_one_permutation [[0], [1]] [[1], [0]] [[1], [1]]
    [1/4, 1/2] [1, 0] (by decide) (by decide) (by decide) 0 (by decide)

/-! ## Learning-rate schedule (`main`, source lines 194-197, 226, 240)

Line 196 builds
`decayed_lr = tf.train.exponential_decay(args.lr, global_step, 5000, 0.5, staircase=True)`.
Under eager execution (enabled at line 267) `tf.train.exponential_decay`
returns a no-argument function which, when CALLED, evaluates the
staircase schedule at the current global step.  Line 197 passes
`decayed_lr()` — the schedule evaluated once, at optimizer construction
time, when the global step is 0 — to `MomentumOptimizer`, so the
optimizer stores the fixed value `args.lr * 0.5 ^ 0 = args.lr` and
applies it at every step.  Line 240 logs `decayed_lr()` freshly, so the
logged learning rate does follow the schedule the spec describes, while
the applied one does not. -/

/-- Staircase exponential decay with decay steps 5000 and rate 0.5, as
a function of the global step (integer division gives the staircase). -/
def exponentialDecayStaircase (lr0 : Rat) (globalStep : Nat) : Rat :=
  lr0 * (1 / 2) ^ (globalStep / 5000)

/-- The learning-rate value `MomentumOptimizer` stores: `decayed_lr()`
evaluated at construction time, when the global step is 0. -/
def optimizerStoredLearningRate (lr0 : Rat) : Rat :=
  exponentialDecayStaircase lr0 0

/-- The learning rate the optimizer applies at global step `s`: the
stored construction-time value, independent of `s`. -/
def effectiveLearningRate (lr0 : Rat) : Nat → Rat :=
  fun _ => optimizerStoredLearningRate lr0

/-- The learning rate written to the summary at line 240: `decayed_lr()`
evaluated afresh at the current global step. -/
def loggedLearningRate (lr0 : Rat) (s : Nat) : Rat :=
  exponentialDecayStaircase lr0 s

/-- Effect of `optimizer.apply_gradients(..., global_step)` (line 226)
on the global step counter: one increment per batch update. -/
def applyGradientsStep (gs : Nat) : Nat := gs + 1

/-- C4, evaluated at the failing input: with the default initial
learning rate 0.001, at global step 5000 the optimizer still applies
0.001, while the staircase schedule the claim describes (and line 240
logs) gives 0.0005; the applied rate disagrees with the logged rate
from step 5000 on because line 197 evaluates `decayed_lr()` once at
construction instead of passing the schedule itself.  The global step
counter does advance by one per batch update. -/
theorem learning_rate_never_decays :
    effectiveLearningRate (1/1000) 5000 = 1/1000 ∧
      exponentialDecayStaircase (1/1000) 5000 = 1/2000 ∧
      loggedLearningRate (1/1000) 5000 = 1/2000 ∧
      effectiveLearningRate (1/1000) 5000
        ≠ exponentialDecayStaircase (1/1000) 5000 ∧
      (∀ s, applyGradientsStep s = s + 1) := by
  refine ⟨?_, ?_, ?_, ?_, fun _ => rfl⟩
  · norm_num [effectiveLearningRate, optimizerStoredLearningRate,
      exponentialDecayStaircase]
  · norm_num [exponentialDecayStaircase]
  · norm_num [loggedLearningRate, exponentialDecayStaircase]
  · norm_num [effectiveLearningRate, optimizerStoredLearningRate,
      exponentialDecayStaircase]

/-! ## Checkpoint cadence (`main`, source lines 199-200, 212, 248-249) -/

/-- Checkpoint root built at lines 199-200:
`tf.train.Checkpoint(optimizer=optimizer, model=model)` bundles both
the optimizer state and the model parameters, and `root.save` persists
both. -/
structure Checkpoint (Opt Model : Type) where
  optimizer : Opt
  model : Model

/-- Observable events of one training epoch `ep` (lines 212-249): `B`
batch updates, then — after the whole epoch — a save of the checkpoint
root iff `ep % 2 == 0` (line 248). -/
inductive TrainEvent where
  | batchStep (ep : Nat) (b : Nat)
  | saveCkpt (ep : Nat)
deriving DecidableEq

/-- Trace of epoch `ep` with `B` batches per epoch. -/
def epochTrace (B ep : Nat) : List TrainEvent :=
  (List.range B).map (TrainEvent.batchStep ep) ++
    (if ep % 2 = 0 then [TrainEvent.saveCkpt ep] else [])

/-- Trace of the whole run, epoch indices `0, ..., epochs - 1`. -/
def mainTrace (epochs B : Nat) : List TrainEvent :=
  (List.range epochs).flatMap (fun ep => epochTrace B ep)

/-- C7: a checkpoint save (of the root bundling both the model and the
optimizer) occurs for epoch `ep` exactly when `ep` is an even epoch
index of the run, it occurs at the end of that epoch, after all of the
epoch's batch updates, and no save happens at the end of an odd epoch. -/
theorem checkpoint_every_two_epochs (epochs B ep : Nat) :
    (TrainEvent.saveCkpt ep ∈ mainTrace epochs B
        ↔ ep < epochs ∧ ep % 2 = 0) ∧
      (ep % 2 = 0 → epochTrace B ep
        = (List.range B).map (TrainEvent.batchStep ep)
            ++ [TrainEvent.saveCkpt ep]) ∧
      (ep % 2 ≠ 0 → epochTrace B ep
        = (List.range B).map (TrainEvent.batchStep ep)) ∧
      (∀ (Opt Model : Type) (o : Opt) (m : Model),
        (Checkpoint.mk o m).optimizer = o ∧ (Checkpoint.mk o m).model = m) := by
  refine ⟨?_, ?_, ?_, fun _ _ o m => ⟨rfl, rfl⟩⟩
  · constructor
    · intro h
      simp only [mainTrace, List.mem_flatMap, List.mem_range] at h
      obtain ⟨a, ha, hmem⟩ := h
      simp only [epochTrace, List.mem_append, List.mem_map,
        List.mem_range] at hmem
      rcases hmem with ⟨b, _, hb⟩ | hif
      · exact absurd hb (by simp)
      · by_cases hpar : a % 2 = 0
        · rw [if_pos hpar] at hif
          simp only [List.mem_singleton, TrainEvent.saveCkpt.injEq] at hif
          subst hif
          exact ⟨ha, hpar⟩
        · rw [if_neg hpar] at hif
          simp at hif
    · rintro ⟨h1, h2⟩
      simp only [mainTrace, List.mem_flatMap, List.mem_range]
      exact ⟨ep, h1, by simp [epochTrace, h2]⟩
  · intro h; simp [epochTrace, h]
  · intro h; simp [epochTrace, h]

/-- C7 witness: the cadence theorem applied at a run of 4 epochs with 3
batches per epoch, at the even epoch 2. -/
theorem checkpoint_every_two_epochs_witness :
    epochTrace 3 2 = (List.range 3).map (TrainEvent.batchStep 2)
      ++ [TrainEvent.saveCkpt 2] :=
  (checkpoint_every_two_epochs 4 3 2).2.1 (by decide)

/-! ## Model construction (`CaffeNet`, source lines 17-24, 82-85, 182) -/

/-- The fixed 20-entry PASCAL class catalog (lines 17-19). -/
def CLASS_NAMES : List String :=
  ["aeroplane", "bicycle", "bird", "boat", "bottle", "bus", "car",
   "cat", "chair", "cow", "diningtable", "dog", "horse", "motorbike",
   "person", "pottedplant", "sheep", "sofa", "train", "tvmonitor"]

/-- The constructor-relevant state of `CaffeNet`: the layer stack is an
external collaborator; the field recorded by `__init__` that the
embedded claims depend on is `num_classes`. -/
structure CaffeNet where
  num_classes : Nat

/-- Embedding of `CaffeNet.__init__` (line 22): the `num_classes`
parameter defaults to 10. -/
def CaffeNet.init (num_classes : Nat := 10) : CaffeNet :=
  ⟨num_classes⟩

/-- Embedding of `CaffeNet.compute_output_shape` (lines 82-85): keep
the batch dimension, replace the rest by `num_classes`.  A dimension is
an `Option Nat`, `none` standing for an unknown (`None`) size. -/
def CaffeNet.compute_output_shape (m : CaffeNet)
    (input_shape : List (Option Nat)) : List (Option Nat) :=
  [input_shape.getD 0 none, some m.num_classes]

/-- Line 182: `model = CaffeNet(num_classes=len(CLASS_NAMES))`. -/
def mainModel : CaffeNet := CaffeNet.init CLASS_NAMES.length

/-- C9: the constructor default for `num_classes` is 10, which differs
from the 20-entry class catalog; the model built in `main` is
explicitly constructed with `num_classes = len(CLASS_NAMES) = 20`; and
for any constructed model, `compute_output_shape` reports
`(batch, num_classes)` for the `num_classes` given at construction. -/
theorem caffenet_num_classes_default :
    (CaffeNet.init).num_classes = 10 ∧
      CLASS_NAMES.length = 20 ∧
      (CaffeNet.init).num_classes ≠ CLASS_NAMES.length ∧
      mainModel.num_classes = 20 ∧
      (∀ (n : Nat) (s : List (Option Nat)),
        (CaffeNet.init n).compute_output_shape s
          = [s.getD 0 none, some n]) := by
  exact ⟨rfl, rfl, by decide, rfl, fun n s => rfl⟩

/-! ## Average precision (`util.compute_ap`, called at lines 254-258)

`util.compute_ap` is code of this repository that is not under `src/`
(only its caller `main` is), so it is modelled from the spec, section
4.5: restrict the class's scores and ground-truth labels to examples
whose weight for the class is nonzero; rank examples by predicted score
descending with a stable sort; the average precision is the area under
the precision-recall curve swept through the ranking, i.e. the mean
over positive examples of the precision at each positive's rank; for a
class with no positive example after filtering the modelled convention
is the value 0. -/

/-- Ranking relation for the descending stable sort: `a` precedes `b`
when `a`'s score is at least `b`'s score. -/
def scoreGE (a b : Rat × Rat) : Prop := b.1 ≤ a.1

instance : DecidableRel scoreGE :=
  fun a b => inferInstanceAs (Decidable (b.1 ≤ a.1))

instance : IsTotal (Rat × Rat) scoreGE :=
  ⟨fun a b => le_total b.1 a.1⟩

instance : IsTrans (Rat × Rat) scoreGE :=
  ⟨fun _ _ _ hab hbc => le_trans hbc hab⟩

/-- Modelled from the spec: running sum of precision-at-rank over the
positive entries of a ranked label list; `k` is the number of examples
already ranked, `tp` the number of positives among them. -/
def apSum : List Rat → Nat → Nat → Rat
  | [], _, _ => 0
  | l :: ls, k, tp =>
    if l = 1 then (tp + 1 : Rat) / (k + 1 : Rat) + apSum ls (k + 1) (tp + 1)
    else apSum ls (k + 1) tp

/-- Modelled from the spec: the (score, label, weight) triples of one
class whose weight is nonzero; zero-weight examples are excluded from
every precision/recall computation. -/
def keptTriples (scores labels weights : List Rat) :
    List (Rat × Rat × Rat) :=
  (scores.zip (labels.zip weights)).filter (fun t => decide (t.2.2 ≠ 0))

/-- Modelled from the spec: the kept (score, label) pairs ranked by
score descending with a stable sort (insertion sort; ties keep the
ranking order the sort produces). -/
def rankedPairs (scores labels weights : List Rat) : List (Rat × Rat) :=
  List.insertionSort scoreGE
    ((keptTriples scores labels weights).map (fun t => (t.1, t.2.1)))

/-- Labels in ranked order. -/
def rankedLabels (scores labels weights : List Rat) : List Rat :=
  (rankedPairs scores labels weights).map Prod.snd

/-- Number of positive examples of the class after weight filtering. -/
def posCount (scores labels weights : List Rat) : Nat :=
  (rankedLabels scores labels weights).count 1

/-- Modelled from the spec: average precision of one class, the mean of
precision-at-rank over the positive examples of the ranked,
weight-filtered list; 0 when the class has no positive example. -/
def compute_ap (scores labels weights : List Rat) : Rat :=
  if posCount scores labels weights = 0 then 0
  else apSum (rankedLabels scores labels weights) 0 0
    / (posCount scores labels weights : Rat)

theorem apSum_zeros (m k tp : Nat) :
    apSum (List.replicate m 0) k tp = 0 := by
  induction m generalizing k tp with
  | zero => rfl
  | succ q ih =>
    rw [List.replicate_succ]
    show apSum (0 :: List.replicate q 0) k tp = 0
    rw [apSum, if_neg (by norm_num), ih]

theorem apSum_ones_zeros (p m k : Nat) :
    apSum (List.replicate p 1 ++ List.replicate m 0) k k = p := by
  induction p generalizing k with
  | zero => simpa using apSum_zeros m k k
  | succ q ih =>
    rw [List.replicate_succ, List.cons_append]
    show apSum (1 :: (List.replicate q 1 ++ List.replicate m 0)) k k = _
    rw [apSum, if_pos rfl, ih (k + 1)]
    have hk : ((k : Rat) + 1) ≠ 0 := by positivity
    rw [div_self hk]
    push_cast
    ring

theorem sorted_pairs_binary (l : List (Rat × Rat))
    (hs : l.Sorted scoreGE)
    (hall : ∀ x ∈ l, x = ((1 : Rat), (1 : Rat)) ∨ x = ((0 : Rat), (0 : Rat))) :
    l = List.replicate (l.count ((1 : Rat), (1 : Rat))) ((1 : Rat), (1 : Rat))
      ++ List.replicate (l.count ((0 : Rat), (0 : Rat)))
          ((0 : Rat), (0 : Rat)) := by
  induction l with
  | nil => simp
  | cons x xs ih =>
    rw [List.sorted_cons] at hs
    obtain ⟨hx, hxs⟩ := hs
    rcases hall x (List.mem_cons_self x xs) with h1 | h0
    · subst h1
      have hrest := ih hxs (fun y hy => hall y (List.mem_cons_of_mem _ hy))
      have hcount0 : ((((1 : Rat), (1 : Rat)) :: xs).count
          ((0 : Rat), (0 : Rat))) = xs.count ((0 : Rat), (0 : Rat)) := by
        rw [List.count_cons]
        norm_num [Prod.ext_iff]
      rw [List.count_cons_self, hcount0, List.replicate_succ,
        List.cons_append]
      exact congrArg (List.cons ((1 : Rat), (1 : Rat))) hrest
    · subst h0
      have hall0 : ∀ y ∈ xs, y = ((0 : Rat), (0 : Rat)) := by
        intro y hy
        rcases hall y (List.mem_cons_of_mem _ hy) with h1 | h0'
        · exfalso
          have hle := hx y hy
          rw [h1] at hle
          exact absurd hle (by norm_num [scoreGE])
        · exact h0'
      have hxs_rep : xs = List.replicate xs.length ((0 : Rat), (0 : Rat)) :=
        List.eq_replicate_of_mem hall0
      have hno : ((1 : Rat), (1 : Rat)) ∉
          (((0 : Rat), (0 : Rat)) :: xs) := by
        intro hmem
        rcases List.mem_cons.mp hmem with h | h
        · exact absurd h (by norm_num [Prod.ext_iff])
        · exact absurd (hall0 _ h) (by norm_num [Prod.ext_iff])
      have hcount1 : ((((0 : Rat), (0 : Rat)) :: xs).count
          ((1 : Rat), (1 : Rat))) = 0 := List.count_eq_zero.mpr hno
      have hcount0 : ((((0 : Rat), (0 : Rat)) :: xs).count
          ((0 : Rat), (0 : Rat))) = xs.length + 1 := by
        rw [List.count_cons_self]
        rw [hxs_rep, List.count_replicate]
        simp
      rw [hcount1, hcount0, List.replicate_succ]
      simp only [List.replicate, List.nil_append]
      exact congrArg (List.cons ((0 : Rat), (0 : Rat))) hxs_rep

theorem mem_zip_self (l : List Rat) :
    ∀ (w : List Rat) (t : Rat × Rat × Rat),
      t ∈ l.zip (l.zip w) → t.1 = t.2.1 ∧ t.1 ∈ l := by
  induction l with
  | nil => intro w t ht; simp at ht
  | cons x xs ih =>
    intro w t ht
    cases w with
    | nil => simp at ht
    | cons y ys =>
      rw [List.zip_cons_cons, List.zip_cons_cons, List.mem_cons] at ht
      rcases ht with h | h
      · subst h
        exact ⟨rfl, List.mem_cons_self x xs⟩
      · obtain ⟨heq, hmem⟩ := ih ys t h
        exact ⟨heq, List.mem_cons_of_mem _ hmem⟩

/-- C8: for every class whose ground-truth labels are binary and which
has at least one positive example after weight filtering, the average
precision computed with the ground-truth labels used as the prediction
scores equals 1: the perfect ranking puts every positive before every
negative, so the precision at each positive's rank is 1. -/
theorem gt_scores_ap_eq_one (labels weights : List Rat)
    (hbin : ∀ l ∈ labels, l = 0 ∨ l = 1)
    (hpos : 0 < posCount labels labels weights) :
    compute_ap labels labels weights = 1 := by
  have hallpairs : ∀ p ∈ rankedPairs labels labels weights,
      p = ((1 : Rat), (1 : Rat)) ∨ p = ((0 : Rat), (0 : Rat)) := by
    intro p hp
    have hp' : p ∈ (keptTriples labels labels weights).map
        (fun t => (t.1, t.2.1)) :=
      (List.perm_insertionSort scoreGE _).subset hp
    obtain ⟨t, ht, rfl⟩ := List.mem_map.mp hp'
    have htz : t ∈ labels.zip (labels.zip weights) :=
      List.mem_of_mem_filter ht
    obtain ⟨heq, hmem⟩ := mem_zip_self labels weights t htz
    rcases hbin _ hmem with h0 | h1
    · right
      rw [Prod.mk.injEq]
      exact ⟨h0, by rw [← heq]; exact h0⟩
    · left
      rw [Prod.mk.injEq]
      exact ⟨h1, by rw [← heq]; exact h1⟩
  have hsorted : (rankedPairs labels labels weights).Sorted scoreGE :=
    List.sorted_insertionSort scoreGE _
  have hform := sorted_pairs_binary _ hsorted hallpairs
  set P := (rankedPairs labels labels weights).count ((1 : Rat), (1 : Rat))
    with hP
  set M := (rankedPairs labels labels weights).count ((0 : Rat), (0 : Rat))
    with hM
  have hlab : rankedLabels labels labels weights =
      List.replicate P 1 ++ List.replicate M 0 := by
    show (rankedPairs labels labels weights).map Prod.snd = _
    rw [hform, List.map_append, List.map_replicate, List.map_replicate]
  have hposP : posCount labels labels weights = P := by
    show (rankedLabels labels labels weights).count 1 = _
    rw [hlab, List.count_append, List.count_replicate, List.count_replicate]
    simp
  rw [compute_ap, if_neg (by omega), hlab, hposP, apSum_ones_zeros]
  exact div_self (Nat.cast_ne_zero.mpr (by omega))

/-- C8 witness: class labels `1, 0, 1` with the third example masked
out by a zero weight; using the labels as scores yields AP 1. -/
theorem gt_scores_ap_eq_one_witness :
    compute_ap [1, 0, 1] [1, 0, 1] [1, 1, 0] = 1 :=
  gt_scores_ap_eq_one [1, 0, 1] [1, 1, 0] (by decide) (by decide)

/-! ## Evaluator (`test`, source lines 96-107)

The forward pass of the network is an external collaborator; `test` is
embedded as a function of an abstract model `model : I → Bool → logits`
(the Bool is the `training` flag) and of the list of evaluation
batches.  Real-valued tensors are lists of lists of reals.  The two
eager metrics `tfe.metrics.Mean` and `tfe.metrics.Accuracy` accumulate
state across batches: `Mean` a running total and a count of pushed
values, `Accuracy` a running count of elementwise agreements and of
elements seen. -/

/-- Logistic sigmoid, the embedding of `tf.nn.sigmoid`. -/
noncomputable def sigmoid (x : Real) : Real := 1 / (1 + Real.exp (-x))

/-- Embedding of `tf.cast(tf.round(tf.nn.sigmoid(x)), tf.int32)` on one
logit: the sigmoid lands in the open interval from 0 to 1, so the
rounded value is 1 exactly when the sigmoid exceeds one half; the tie
value one half, attained only at logit 0, is sent to the even value 0
by round-half-to-even. -/
noncomputable def prediction (x : Real) : Real :=
  if 1 / 2 < sigmoid x then 1 else 0

/-- Per-element sigmoid cross-entropy with logits, the value computed
by `tf.nn.sigmoid_cross_entropy_with_logits(labels=z, logits=x)`. -/
noncomputable def elementLoss (z x : Real) : Real :=
  x - x * z + Real.log (1 + Real.exp (-x))

/-- Weighted sum of per-element losses over one row (one example's
classes). -/
noncomputable def rowLossSum : List Real → List Real → List Real → Real
  | z :: zs, x :: xs, w :: ws => w * elementLoss z x + rowLossSum zs xs ws
  | _, _, _ => 0

/-- Weighted sum of per-element losses over a whole batch. -/
noncomputable def batchLossSum :
    List (List Real) → List (List Real) → List (List Real) → Real
  | l :: ls, x :: xs, w :: ws => rowLossSum l x w + batchLossSum ls xs ws
  | _, _, _ => 0

open Classical in
/-- Number of nonzero weights in one row. -/
noncomputable def rowNonzeroCount : List Real → Nat
  | w :: ws => (if w = 0 then 0 else 1) + rowNonzeroCount ws
  | [] => 0

/-- Number of nonzero weights in a weight matrix. -/
noncomputable def nonzeroCount (weights : List (List Real)) : Nat :=
  (weights.map rowNonzeroCount).sum

/-- Embedding of `tf.losses.sigmoid_cross_entropy(labels, logits,
weights)` with its default `SUM_BY_NONZERO_WEIGHTS` reduction: the
weighted sum of per-element losses divided by the number of nonzero
weight entries (0 when no weight is nonzero, via division by zero). -/
noncomputable def sigmoid_cross_entropy
    (labels logits weights : List (List Real)) : Real :=
  batchLossSum labels logits weights / (nonzeroCount weights : Real)

open Classical in
/-- Number of elementwise agreements between two rows. -/
noncomputable def matchRow : List Real → List Real → Nat
  | p :: ps, l :: ls => (if p = l then 1 else 0) + matchRow ps ls
  | _, _ => 0

/-- Number of elementwise agreements between two matrices. -/
noncomputable def matchCount : List (List Real) → List (List Real) → Nat
  | p :: ps, l :: ls => matchRow p l + matchCount ps ls
  | _, _ => 0

/-- Number of elements compared between two rows. -/
def entryRow : List Real → List Real → Nat
  | _ :: ps, _ :: ls => 1 + entryRow ps ls
  | _, _ => 0

/-- Number of elements compared between two matrices. -/
def entryCount : List (List Real) → List (List Real) → Nat
  | p :: ps, l :: ls => entryRow p l + entryCount ps ls
  | _, _ => 0

/-- State of `tfe.metrics.Mean`. -/
structure MeanMetric where
  total : Real
  count : Nat

/-- Pushing one value into `tfe.metrics.Mean`. -/
def MeanMetric.push (m : MeanMetric) (v : Real) : MeanMetric :=
  ⟨m.total + v, m.count + 1⟩

/-- Result of `tfe.metrics.Mean`: the mean of the pushed values. -/
noncomputable def MeanMetric.result (m : MeanMetric) : Real :=
  m.total / (m.count : Real)

/-- State of `tfe.metrics.Accuracy`. -/
structure AccuracyMetric where
  correct : Nat
  seen : Nat

/-- Pushing one (prediction, label) pair of matrices into
`tfe.metrics.Accuracy`. -/
noncomputable def AccuracyMetric.push (a : AccuracyMetric)
    (pred labels : List (List Real)) : AccuracyMetric :=
  ⟨a.correct + matchCount pred labels, a.seen + entryCount pred labels⟩

/-- Result of `tfe.metrics.Accuracy`: fraction of elementwise
agreements among all elements seen. -/
noncomputable def AccuracyMetric.result (a : AccuracyMetric) : Real :=
  (a.correct : Real) / (a.seen : Real)

/-- One evaluation batch: opaque images plus label and weight
matrices. -/
structure TestBatch (I : Type) where
  images : I
  labels : List (List Real)
  weights : List (List Real)

/-- Body of the loop of `test` (lines 99-106) for one batch. -/
noncomputable def testStep {I : Type} (model : I → Bool → List (List Real))
    (st : MeanMetric × AccuracyMetric) (b : TestBatch I) :
    MeanMetric × AccuracyMetric :=
  let logits := model b.images false
  let loss_value := sigmoid_cross_entropy b.labels logits b.weights
  let pred := logits.map (fun row => row.map prediction)
  (st.1.push loss_value, st.2.push pred b.labels)

/-- Embedding of `test` (lines 96-107): fold the per-batch step over
the dataset starting from fresh metrics and return
`(test_loss.result(), test_accuracy.result())`. -/
noncomputable def test {I : Type} (model : I → Bool → List (List Real))
    (dataset : List (TestBatch I)) : Real × Real :=
  let final := dataset.foldl (testStep model) (⟨0, 0⟩, ⟨0, 0⟩)
  (final.1.result, final.2.result)

theorem testFold_spec {I : Type} (model : I → Bool → List (List Real))
    (ds : List (TestBatch I)) (st : MeanMetric × AccuracyMetric) :
    ds.foldl (testStep model) st =
      (⟨st.1.total + (ds.map (fun b =>
          sigmoid_cross_entropy b.labels (model b.images false)
            b.weights)).sum,
        st.1.count + ds.length⟩,
       ⟨st.2.correct + (ds.map (fun b =>
          matchCount ((model b.images false).map
            (fun row => row.map prediction)) b.labels)).sum,
        st.2.seen + (ds.map (fun b =>
          entryCount ((model b.images false).map
            (fun row => row.map prediction)) b.labels)).sum⟩) := by
  induction ds generalizing st with
  | nil =>
    obtain ⟨⟨t, c⟩, ⟨co, se⟩⟩ := st
    simp
  | cons b bs ih =>
    rw [List.foldl_cons, ih]
    simp only [testStep, MeanMetric.push, AccuracyMetric.push,
      List.map_cons, List.sum_cons, List.length_cons, Prod.mk.injEq,
      MeanMetric.mk.injEq, AccuracyMetric.mk.injEq]
    refine ⟨⟨by ring, by omega⟩, by omega, by omega⟩

/-- Closed form of the first component of `test`. -/
theorem test_loss_result {I : Type} (model : I → Bool → List (List Real))
    (ds : List (TestBatch I)) :
    (test model ds).1 = (ds.map (fun b =>
        sigmoid_cross_entropy b.labels (model b.images false)
          b.weights)).sum / (ds.length : Real) := by
  show ((ds.foldl (testStep model) (⟨0, 0⟩, ⟨0, 0⟩)).1.result) = _
  rw [testFold_spec]
  simp [MeanMetric.result]

/-- Closed form of the second component of `test`. -/
theorem test_accuracy_result {I : Type}
    (model : I → Bool → List (List Real)) (ds : List (TestBatch I)) :
    (test model ds).2 = ((ds.map (fun b =>
        matchCount ((model b.images false).map
          (fun row => row.map prediction)) b.labels)).sum : Real) /
      ((ds.map (fun b =>
        entryCount ((model b.images false).map
          (fun row => row.map prediction)) b.labels)).sum : Real) := by
  show ((ds.foldl (testStep model) (⟨0, 0⟩, ⟨0, 0⟩)).2.result) = _
  rw [testFold_spec]
  simp [AccuracyMetric.result]

theorem prediction_eq_pos (x : Real) :
    prediction x = if 0 < x then 1 else 0 := by
  have hE : 0 < Real.exp (-x) := Real.exp_pos (-x)
  have hD : 0 < 1 + Real.exp (-x) := by positivity
  have hiff : 1 / 2 < sigmoid x ↔ 0 < x := by
    rw [sigmoid, div_lt_div_iff₀ two_pos hD]
    rw [one_mul, one_mul]
    constructor
    · intro h
      have hlt : Real.exp (-x) < 1 := by linarith
      have := Real.exp_lt_one_iff.mp hlt
      linarith
    · intro h
      have hlt : Real.exp (-x) < 1 := Real.exp_lt_one_iff.mpr (by linarith)
      linarith
  rw [prediction, if_congr hiff rfl rfl]

theorem elementLoss_eq_cross_entropy (z x : Real) :
    elementLoss z x =
      -(z * Real.log (sigmoid x) + (1 - z) * Real.log (1 - sigmoid x)) := by
  have hE : 0 < Real.exp (-x) := Real.exp_pos (-x)
  have hD : 0 < 1 + Real.exp (-x) := by positivity
  have h1 : Real.log (sigmoid x) = -Real.log (1 + Real.exp (-x)) := by
    rw [sigmoid, one_div, Real.log_inv]
  have h2 : (1 : Real) - sigmoid x
      = Real.exp (-x) / (1 + Real.exp (-x)) := by
    rw [sigmoid]
    field_simp
  have h3 : Real.log (Real.exp (-x) / (1 + Real.exp (-x)))
      = -x - Real.log (1 + Real.exp (-x)) := by
    rw [Real.log_div (ne_of_gt hE) (ne_of_gt hD), Real.log_exp]
  rw [elementLoss, h1, h2, h3]
  ring

/-- C3: for every abstract model and every evaluation dataset, `test`
runs the forward pass with the training flag false, pushes into the
mean metric the sigmoid cross-entropy between labels and logits
weighted by the weight matrix, pushes into the accuracy metric the
elementwise agreement between the binarized predictions and the labels,
and returns the pair of the mean per-batch loss and the fraction of
agreeing label entries across all examples and classes seen; the
binarization applies the sigmoid and rounds, which sets an entry to 1
exactly when its logit is positive, and the per-element loss is the
textbook sigmoid cross-entropy. -/
theorem test_evaluator_spec {I : Type} (model : I → Bool → List (List Real))
    (ds : List (TestBatch I)) :
    (test model ds).1 = (ds.map (fun b =>
        sigmoid_cross_entropy b.labels (model b.images false)
          b.weights)).sum / (ds.length : Real) ∧
      (test model ds).2 = ((ds.map (fun b =>
          matchCount ((model b.images false).map
            (fun row => row.map prediction)) b.labels)).sum : Real) /
        ((ds.map (fun b =>
          entryCount ((model b.images false).map
            (fun row => row.map prediction)) b.labels)).sum : Real) ∧
      (∀ x : Real, prediction x = if 0 < x then 1 else 0) ∧
      (∀ z x : Real, elementLoss z x =
        -(z * Real.log (sigmoid x) + (1 - z) * Real.log (1 - sigmoid x))) :=
  ⟨test_loss_result model ds, test_accuracy_result model ds,
    prediction_eq_pos, elementLoss_eq_cross_entropy⟩

/-- Unweighted arithmetic mean of a list of per-batch values. -/
noncomputable def meanOfMeans (ls : List Real) : Real :=
  ls.sum / (ls.length : Real)

/-- Mean over all examples of a run in which batch `i` has `sizes[i]`
examples and per-example mean loss `ls[i]`: the size-weighted mean of
the per-batch means. -/
noncomputable def exampleMean (sizes : List Nat) (ls : List Real) : Real :=
  ((sizes.zip ls).map (fun p => (p.1 : Real) * p.2)).sum
    / (sizes.sum : Real)

theorem replicate_zip_map_sum (m : Nat) (ls : List Real) :
    (((List.replicate ls.length m).zip ls).map
      (fun p => (p.1 : Real) * p.2)).sum = (m : Real) * ls.sum := by
  induction ls with
  | nil => simp
  | cons x xs ih =>
    rw [List.length_cons, List.replicate_succ, List.zip_cons_cons,
      List.map_cons, List.sum_cons, ih, List.sum_cons]
    ring

/-- C10: the loss returned by `test` is the unweighted arithmetic mean
of the per-batch losses, each batch counting once regardless of its
size; with batches of unequal sizes (sizes 2 and 1, so 3 examples and
batch size 2) this differs from the mean over all examples; and when
every batch has the same positive size the two coincide. -/
theorem test_loss_batch_mean_aggregation :
    (∀ (I : Type) (model : I → Bool → List (List Real))
      (ds : List (TestBatch I)),
      (test model ds).1 = meanOfMeans (ds.map (fun b =>
        sigmoid_cross_entropy b.labels (model b.images false)
          b.weights))) ∧
      meanOfMeans [0, 1] ≠ exampleMean [2, 1] [0, 1] ∧
      (∀ (ls : List Real) (m : Nat), 0 < m →
        exampleMean (List.replicate ls.length m) ls = meanOfMeans ls) := by
  refine ⟨?_, ?_, ?_⟩
  · intro I model ds
    rw [test_loss_result, meanOfMeans, List.length_map]
  · show (List.sum [0, 1]) / _ ≠ _
    rw [exampleMean]
    norm_num
  · intro ls m hm
    rw [exampleMean, replicate_zip_map_sum, List.sum_replicate,
      meanOfMeans]
    have hm' : (m : Real) ≠ 0 := Nat.cast_ne_zero.mpr (by omega)
    rw [smul_eq_mul]
    push_cast
    rw [mul_comm (ls.length : Real) (m : Real),
      mul_div_mul_left _ _ hm']

/-- C10 witness: the equal-size conjunct applied to two batches of size
2. -/
theorem test_loss_batch_mean_aggregation_witness :
    exampleMean (List.replicate ([(0 : Real), 1].length) 2) [(0 : Real), 1]
      = meanOfMeans [(0 : Real), 1] :=
  test_loss_batch_mean_aggregation.2.2 [(0 : Real), 1] 2 (by decide)

end Pascal
